import Mathlib

/-
  Verification development for the `search` repository: a trie-based file
  name index (src/data.rs) with a sharded persistence layer and query
  engine (src/search_engine.rs).

  The Rust `Node { children: HashMap<char, Node>, paths: Vec<PathBuf> }`
  is embedded as a pair of mutual inductive types: `Children` is an
  association list of (Char, Node) entries modelling the HashMap (unique
  keys; iteration order is the list order).  Keys (`&str`) are embedded as
  `List Char` (Rust iterates keys with `.chars()`); `PathBuf` values as
  `String`.  `key.len()` in Rust is the UTF-8 byte length, embedded as
  `byteLen`.  Rust panics (`unwrap`/`expect`) are embedded as `Option`
  results: `none` means the operation panics.
-/

mutual

inductive Node : Type where
  | mk (children : Children) (paths : List String)
deriving Repr

inductive Children : Type where
  | nil
  | cons (key : Char) (node : Node) (rest : Children)
deriving Repr

end

def Node.children : Node → Children
  | .mk c _ => c

def Node.paths : Node → List String
  | .mk _ p => p

/-- `Node::new()`: empty children, empty paths. -/
def Node.new : Node := .mk .nil []

/-- `HashMap::get`: first (unique) entry with the given key. -/
def Children.find : Children → Char → Option Node
  | .nil, _ => none
  | .cons k n t, c => if k = c then some n else t.find c

/-- `HashMap::insert`-like update: replace the entry for `c`, or append one. -/
def Children.set : Children → Char → Node → Children
  | .nil, c, m => .cons c m .nil
  | .cons k n t, c, m => if k = c then .cons k m t else .cons k n (t.set c m)

/-- `HashMap::remove`: drop the (unique) entry with the given key. -/
def Children.remove : Children → Char → Children
  | .nil, _ => .nil
  | .cons k n t, c => if k = c then t else .cons k n (t.remove c)

def Children.isNil : Children → Bool
  | .nil => true
  | .cons _ _ _ => false

def Children.keys : Children → List Char
  | .nil => []
  | .cons k _ t => k :: t.keys

def Children.hasKey (ch : Children) (c : Char) : Bool :=
  (ch.find c).isSome

/-- Key uniqueness of this level of the association list (the HashMap
representation invariant). -/
def Children.keysOk : Children → Bool
  | .nil => true
  | .cons k _ t => (!t.hasKey k) && t.keysOk

def Children.length : Children → Nat
  | .nil => 0
  | .cons _ _ t => t.length + 1

/-- `Node::is_empty`: no children and no paths. -/
def Node.isEmpty (n : Node) : Bool :=
  n.children.isNil && n.paths.isEmpty

/-- `Node::get` (src/data.rs:77-86): walk one child per character. -/
def Node.get : Node → List Char → Option Node
  | n, [] => some n
  | n, c :: rest =>
    match n.children.find c with
    | some m => m.get rest
    | none => none

/-- `Node::insert` (src/data.rs:88-97): walk/create one child per
character of the key, then push the value on the terminal node's paths. -/
def Node.insert : Node → List Char → String → Node
  | n, [], v => .mk n.children (n.paths ++ [v])
  | n, c :: rest, v =>
    .mk (n.children.set c (((n.children.find c).getD Node.new).insert rest v)) n.paths

/-- The values list stored at a key (empty when the key is absent). -/
def Node.valsAt (n : Node) (k : List Char) : List String :=
  match n.get k with
  | some m => m.paths
  | none => []

/-- `Node::clear` (src/data.rs:140-143). -/
def Node.clear : Node → Node := fun _ => Node.new

/-- UTF-8 byte length of a key, i.e. Rust `str::len()` of the key string. -/
def byteLen (k : List Char) : Nat := (k.map Char.utf8Size).sum

/-- `delete_recursive` (src/data.rs:100-113).  `rem` is the not yet
consumed character suffix of the key (`key.chars().nth(depth)` is its
head), `d` the current depth in characters, `B` the byte length
`key.len()` of the whole key.  Returns `none` when the Rust code panics
(`key.chars().nth(depth).unwrap()` on a missing character), otherwise the
rewritten node together with the should-my-parent-remove-me flag. -/
def delByte : Node → List Char → Nat → Nat → Option (Node × Bool)
  | n, rem, d, B =>
    if d = B then some (.mk n.children [], n.children.isNil)
    else
      match rem with
      | [] => none
      | c :: rest =>
        match n.children.find c with
        | none => some (n, false)
        | some child =>
          match delByte child rest (d + 1) B with
          | none => none
          | some (_, true) =>
            let kids := n.children.remove c
            some (.mk kids n.paths, n.paths.isEmpty && kids.isNil)
          | some (child2, false) =>
            some (.mk (n.children.set c child2) n.paths, false)

/-- `Node::delete` (src/data.rs:99-115): `none` when the code panics. -/
def Node.delete (n : Node) (key : List Char) : Option Node :=
  (delByte n key 0 (byteLen key)).map Prod.fst

/-- The clean character-indexed delete; `delByte` agrees with it whenever
the byte length equals the character length (ASCII keys). -/
def delChar : Node → List Char → Node × Bool
  | n, [] => (.mk n.children [], n.children.isNil)
  | n, c :: rest =>
    match n.children.find c with
    | none => (n, false)
    | some child =>
      match delChar child rest with
      | (_, true) =>
        let kids := n.children.remove c
        (.mk kids n.paths, n.paths.isEmpty && kids.isNil)
      | (child2, false) =>
        (.mk (n.children.set c child2) n.paths, false)

mutual

/-- `Node::len` (src/data.rs:121-130): total node count including self. -/
def Node.len : Node → Nat
  | .mk ch _ => 1 + ch.lenSum

def Children.lenSum : Children → Nat
  | .nil => 0
  | .cons _ n t => n.len + t.lenSum

end

mutual

/-- Key uniqueness at every level of the trie. -/
def Node.nodupKeys : Node → Bool
  | .mk ch _ => ch.keysOk && ch.allNodup

def Children.allNodup : Children → Bool
  | .nil => true
  | .cons _ n t => n.nodupKeys && t.allNodup

end

mutual

/-- The pruning invariant: no node reachable from its parent is both
childless and valueless (the root itself is exempt). -/
def Node.goodTree : Node → Bool
  | .mk ch _ => ch.allGood

def Children.allGood : Children → Bool
  | .nil => true
  | .cons _ n t => !n.isEmpty && n.goodTree && t.allGood

end

example : Node.new.get ['k'] = none := rfl
example : (Node.new.insert ['k'] "p").valsAt ['k'] = ["p"] := rfl
example : (Node.new.insert ['a', 'b'] "x").len = 3 := rfl
example : ((Node.new.insert ['a', 'b'] "x").insert ['a', 'c'] "y").len = 4 := rfl
example : (Node.new.insert ['k'] "p").delete ['k'] = some Node.new := rfl
example : (Node.new.insert ['é'] "p").delete ['é'] = none := rfl
example : Char.utf8Size 'é' = 2 := rfl
example : (Node.new.insert ['a','b','c'] "Y").delete ['a','b','c'] = some Node.new := rfl

/-
  Serialization.  `save_index`/`load_index` use `bincode`, an external
  library.  Modelled from the spec: "Serialization format is a
  length-prefixed binary encoding of the TrieNode tree (map of
  character→node, list of path strings); exact byte layout is an
  implementation freedom as long as round-trip fidelity holds."  We fix a
  concrete length-prefixed byte layout: u64 little-endian length prefixes
  (bincode's usize encoding), chars as u32 little-endian, strings as a
  length prefix followed by their characters.  Decoding is a partial
  parser that fails on corrupt input, as `bincode::deserialize_from`
  does; `deserialize_from` ignores trailing bytes, so `decodeBytes`
  discards the unparsed remainder.
-/

/-- Little-endian fixed-width encoding of a natural number (`w` bytes). -/
def encLE : Nat → Nat → List Nat
  | 0, _ => []
  | w + 1, n => n % 256 :: encLE w (n / 256)

/-- Little-endian fixed-width decoding (`w` bytes); fails on short input. -/
def readLE : Nat → List Nat → Option (Nat × List Nat)
  | 0, bs => some (0, bs)
  | _ + 1, [] => none
  | w + 1, b :: bs =>
    match readLE w bs with
    | some (n, r) => some (b + 256 * n, r)
    | none => none

def encChars : List Char → List Nat
  | [] => []
  | c :: cs => encLE 4 c.toNat ++ encChars cs

def encStr (s : String) : List Nat :=
  encLE 8 s.data.length ++ encChars s.data

def encPaths : List String → List Nat
  | [] => []
  | s :: rest => encStr s ++ encPaths rest

mutual

/-- Modelled from the spec: the bincode serialization of a node (bincode
is an external crate; the spec fixes only that the format is a
length-prefixed binary encoding of the tree with round-trip fidelity). -/
def encodeNode : Node → List Nat
  | .mk ch ps => encLE 8 ch.length ++ encodeChildren ch ++ encLE 8 ps.length ++ encPaths ps

def encodeChildren : Children → List Nat
  | .nil => []
  | .cons k n t => encLE 4 k.toNat ++ encodeNode n ++ encodeChildren t

end

def readChars : Nat → List Nat → Option (List Char × List Nat)
  | 0, bs => some ([], bs)
  | k + 1, bs =>
    match readLE 4 bs with
    | none => none
    | some (m, r) =>
      match readChars k r with
      | none => none
      | some (cs, r2) => some (Char.ofNat m :: cs, r2)

def readStr (bs : List Nat) : Option (String × List Nat) :=
  match readLE 8 bs with
  | none => none
  | some (k, r) =>
    match readChars k r with
    | none => none
    | some (cs, r2) => some (⟨cs⟩, r2)

def readPaths : Nat → List Nat → Option (List String × List Nat)
  | 0, bs => some ([], bs)
  | k + 1, bs =>
    match readStr bs with
    | none => none
    | some (s, r) =>
      match readPaths k r with
      | none => none
      | some (ss, r2) => some (s :: ss, r2)

def decodeKids (dec : List Nat → Option (Node × List Nat)) :
    Nat → List Nat → Option (Children × List Nat)
  | 0, bs => some (.nil, bs)
  | k + 1, bs =>
    match readLE 4 bs with
    | none => none
    | some (m, r) =>
      match dec r with
      | none => none
      | some (n, r2) =>
        match decodeKids dec k r2 with
        | none => none
        | some (t, r3) => some (.cons (Char.ofNat m) n t, r3)

def decodeNode : Nat → List Nat → Option (Node × List Nat)
  | 0, _ => none
  | fuel + 1, bs =>
    match readLE 8 bs with
    | none => none
    | some (cnt, r1) =>
      match decodeKids (decodeNode fuel) cnt r1 with
      | none => none
      | some (ch, r2) =>
        match readLE 8 r2 with
        | none => none
        | some (pcnt, r3) =>
          match readPaths pcnt r3 with
          | none => none
          | some (ps, r4) => some (.mk ch ps, r4)

/-- Modelled from the spec: `bincode::deserialize_from` of a whole shard
file; fails (`none`) on corrupt input and ignores trailing bytes. -/
def decodeBytes (bs : List Nat) : Option Node :=
  match decodeNode (bs.length + 1) bs with
  | some (n, _) => some n
  | none => none

/-- Bound on the `usize` values serialized as u64 by bincode. -/
def USIZE : Nat := 2 ^ 64

def pathsBounded : List String → Bool
  | [] => true
  | s :: r => decide (s.data.length < USIZE) && pathsBounded r

mutual

/-- All collection lengths in the tree fit in a u64, as they do for any
tree built by the Rust program (`usize` lengths). -/
def Node.sizeBounded : Node → Bool
  | .mk ch ps =>
    decide (ch.length < USIZE) && decide (ps.length < USIZE) &&
      pathsBounded ps && ch.kidsBounded

def Children.kidsBounded : Children → Bool
  | .nil => true
  | .cons _ n t => n.sizeBounded && t.kidsBounded

end

mutual

def Node.depth : Node → Nat
  | .mk ch _ => ch.maxDepth + 1

def Children.maxDepth : Children → Nat
  | .nil => 0
  | .cons _ n t => max n.depth t.maxDepth

end

example : Char.ofNat ((' ' : Char).toNat) = ' ' := Char.ofNat_toNat _
example : decodeBytes (encodeNode Node.new) = some Node.new := rfl
example : decodeBytes (encodeNode (Node.new.insert ['a'] "p")) = some (Node.new.insert ['a'] "p") := rfl
example : decodeBytes [] = none := rfl

/-
  Shard store.  `save_index` writes file `index<part>/data-<ch><isUpper>`
  for each first-level child `ch` of the root; `load_index` opens the
  same file name.  The filesystem is embedded as an association list from
  (scope character, bucket character, upper-case marker) to file bytes.
-/

abbrev StoreKey := Char × Char × Bool

abbrev Store := List (StoreKey × List Nat)

def storeFind : Store → StoreKey → Option (List Nat)
  | [], _ => none
  | (k, v) :: t, q => if k = q then some v else storeFind t q

def storeSet : Store → StoreKey → List Nat → Store
  | [], q, v => [(q, v)]
  | (k, w) :: t, q, v => if k = q then (k, v) :: t else (k, w) :: storeSet t q v

/-- Models Rust `char::is_uppercase` (exact on ASCII, which is all the
file naming scheme distinguishes on a case-insensitive filesystem). -/
def rustIsUpper (c : Char) : Bool := c.isUpper

/-- The `Search` engine state (src/search_engine.rs:196-199). -/
structure Search where
  index : Node
  search_part : Char

def Search.new : Search := ⟨Node.new, 'C'⟩

/-- The writing loop of `save_index` (src/search_engine.rs:108-118): one
file per first-level child of the root. -/
def writeShards : Char → Children → Store → Store
  | _, .nil, st => st
  | p, .cons k n t, st => writeShards p t (storeSet st (p, k, rustIsUpper k) (encodeNode n))

/-- `Search::save_index` (src/search_engine.rs:99-120): a no-op on an
empty index; otherwise serialize each first-level child to its shard
file and clear the in-memory index. -/
def Search.save_index (s : Search) (st : Store) : Search × Store :=
  if s.index.isEmpty then (s, st)
  else (⟨Node.new, s.search_part⟩, writeShards s.search_part s.index.children st)

/-- `Search::load_index` (src/search_engine.rs:122-137): a missing shard
file resets the index to empty; corrupt shard data panics
(`.expect("Failed to deserialize data")`), embedded as `none`. -/
def Search.load_index (s : Search) (st : Store) (sec : Char) : Option Search :=
  match storeFind st (s.search_part, sec, rustIsUpper sec) with
  | none => some ⟨Node.new, s.search_part⟩
  | some bs =>
    match decodeBytes bs with
    | none => none
    | some n => some ⟨n, s.search_part⟩

mutual

/-- `traverse_node` inside `Search::search` (src/search_engine.rs:84-93):
pre-order collection of the values of a subtree. -/
def collectAll : Node → List String
  | .mk ch ps => ps ++ collectCh ch

def collectCh : Children → List String
  | .nil => []
  | .cons _ n t => collectAll n ++ collectCh t

end

/-- `Search::search` (src/search_engine.rs:63-97) on the loaded index:
exact lookup, or, when the keyword ends with `?`, a prefix query
collecting the stripped prefix's whole subtree. -/
def searchIndex (idx : Node) (keyword : List Char) : Except Unit (List String) :=
  if keyword.getLast? = some '?' then
    match idx.get keyword.dropLast with
    | none => .error ()
    | some m => .ok (collectAll m)
  else
    match idx.get keyword with
    | none => .error ()
    | some m => .ok m.paths

def Search.search (s : Search) (keyword : List Char) : Except Unit (List String) :=
  searchIndex s.index keyword

/-- The wildcard-stripped form of a keyword. -/
def stripQ (k : List Char) : List Char :=
  if k.getLast? = some '?' then k.dropLast else k

/-
  Directory crawler (src/search_engine.rs:145-193).  The filesystem is
  embedded as a tree: a directory is readable (with an entry list) or
  unreadable (`metadata()`/`read_dir()` errors, -> skipped); an entry is
  a subdirectory, a regular file (with its name and full path), something
  neither file nor directory (skipped), or an entry the iterator fails to
  yield (`entry.expect(..)`/`file_type().unwrap()` panics, -> `none`).
-/

mutual

inductive DirTree : Type where
  | unreadable
  | readable (entries : EntryList)

inductive FsEntry : Type where
  | sub (d : DirTree)
  | file (name : List Char) (path : String)
  | special
  | bad

inductive EntryList : Type where
  | nil
  | cons (e : FsEntry) (rest : EntryList)

end

/-- The suffix of `l` after its last `'.'`. -/
def afterLastDot (l : List Char) : List Char :=
  (l.reverse.takeWhile (fun c => c != '.')).reverse

/-- Rust `Path::extension()` of a path whose final component is `name`:
`none` when the name has no embedded `'.'`, or begins with `'.'` and has
no other `'.'`; otherwise the portion after the final `'.'`. -/
def rustExtension (name : List Char) : Option (List Char) :=
  let t := match name with
    | '.' :: rest => rest
    | _ => name
  if t.contains '.' then some (afterLastDot t) else none

/-- The key under which `generate_index` files a path in the extension
index (src/search_engine.rs:170-185): the path's extension, except that
a missing extension (and the literal extension "None") falls back to the
file name with its first character removed (`file_name.remove(0)`). -/
def extKey (name : List Char) : List Char :=
  match rustExtension name with
  | some e => if e = "None".toList then name.tail else e
  | none => name.tail

/-- The body of the file branch of `traverse_directory`
(src/search_engine.rs:162-186).  `none` when the name is empty (then
`file_name.remove(0)` panics); hidden names are skipped by the primary
index but still filed in the extension index. -/
def fileStep (idx ext : Node) (name : List Char) (path : String) (sec : Char) :
    Option (Node × Node) :=
  if name.head? = some sec ∨ sec = '*' then
    match name with
    | [] => none
    | _ :: _ =>
      let idx2 := if name.head? = some '.' then idx else idx.insert name path
      some (idx2, ext.insert (extKey name) path)
  else some (idx, ext)

mutual

/-- `traverse_directory` (src/search_engine.rs:147-189) over the embedded
filesystem, threading the primary and extension accumulators. -/
def travDir (acc : Node × Node) (sec : Char) : DirTree → Option (Node × Node)
  | .unreadable => some acc
  | .readable es => travEntries acc sec es

def travEntries (acc : Node × Node) (sec : Char) : EntryList → Option (Node × Node)
  | .nil => some acc
  | .cons .bad _ => none
  | .cons .special rest => travEntries acc sec rest
  | .cons (.sub d) rest =>
    match travDir acc sec d with
    | none => none
    | some acc2 => travEntries acc2 sec rest
  | .cons (.file name path) rest =>
    match fileStep acc.1 acc.2 name path sec with
    | none => none
    | some acc2 => travEntries acc2 sec rest

end

/-- Modelled from the spec: `Node::add_value` is called by
`generate_index` (src/search_engine.rs:192) but is not defined anywhere
in the sources; the spec says the extension index "is embedded under a
single reserved root key (e.g. `.`)" and "on completion it is merged into
the primary Index under the reserved key", so it stores `sub` as the
child of `n` under key `c`. -/
def add_value (n : Node) (c : Char) (sub : Node) : Node :=
  .mk (n.children.set c sub) n.paths

/-- `Search::generate_index` (src/search_engine.rs:145-193): clear the
index, traverse from the root directory, then merge the extension index
under the reserved key `'.'`. -/
def generate_index (fs : DirTree) (sec : Char) : Option Node :=
  match travDir (Node.new, Node.new) sec fs with
  | none => none
  | some acc => some (add_value acc.1 '.' acc.2)

/- Trie operation sequences (for the reachable-state invariant). -/

inductive TrieOp : Type where
  | ins (key : List Char) (v : String)
  | del (key : List Char)

def applyOp (n : Node) : TrieOp → Option Node
  | .ins k v => some (n.insert k v)
  | .del k => n.delete k

def runOps (n : Node) : List TrieOp → Option Node
  | [] => some n
  | op :: rest =>
    match applyOp n op with
    | none => none
    | some n2 => runOps n2 rest

def applyOps (l : List TrieOp) : Option Node := runOps Node.new l

def applyInserts (l : List (List Char × String)) : Node :=
  l.foldl (fun n p => n.insert p.1 p.2) Node.new

example : (Search.new.save_index []) = (Search.new, []) := rfl
example : searchIndex Node.new [] = .ok [] := rfl
example : searchIndex Node.new ['a'] = .error () := rfl
example : searchIndex Node.new ['?'] = .ok [] := rfl
example : extKey "Makefile".toList = "akefile".toList := rfl
example : extKey ".bashrc".toList = "bashrc".toList := rfl
example : rustExtension "a.tar.gz".toList = some "gz".toList := rfl
example : extKey "a.txt".toList = "txt".toList := rfl
example : generate_index (.readable (.cons .bad .nil)) '*' = none := rfl
example : applyOps [.ins ['a'] "x", .del ['a']] = some Node.new := rfl

/-  Association-list (HashMap) lemmas.  -/

/-- Induction on the association list alone (the `induction` tactic does
not handle the mutual recursor directly). -/
theorem Children.indOn {P : Children → Prop} (ch : Children) (h0 : P .nil)
    (h1 : ∀ k n t, P t → P (.cons k n t)) : P ch :=
  match ch with
  | .nil => h0
  | .cons k n t => h1 k n t (Children.indOn t h0 h1)


theorem Children.find_set_self (ch : Children) (c : Char) (m : Node) :
    (ch.set c m).find c = some m := by
  induction ch using Children.indOn with
  | h0 => simp [Children.set, Children.find]
  | h1 k n t ih =>
    by_cases h : k = c
    · subst h; simp [Children.set, Children.find]
    · simp [Children.set, Children.find, h, ih]

theorem Children.find_set_ne (ch : Children) {c c' : Char} (m : Node) (h : c' ≠ c) :
    (ch.set c m).find c' = ch.find c' := by
  induction ch using Children.indOn with
  | h0 =>
    have h' : ¬ c = c' := fun hc => h hc.symm
    simp [Children.set, Children.find, h']
  | h1 k n t ih =>
    by_cases hk : k = c
    · subst hk
      have : ¬ k = c' := fun hc => h hc.symm
      simp [Children.set, Children.find, this]
    · simp [Children.set, Children.find, hk, ih]

theorem Children.find_remove_ne (ch : Children) {c c' : Char} (h : c' ≠ c) :
    (ch.remove c).find c' = ch.find c' := by
  induction ch using Children.indOn with
  | h0 => simp [Children.remove]
  | h1 k n t ih =>
    by_cases hk : k = c
    · subst hk
      have : ¬ k = c' := fun hc => h hc.symm
      simp [Children.remove, Children.find, this]
    · simp [Children.remove, Children.find, hk, ih]

theorem Children.find_none_of_hasKey_false {ch : Children} {c : Char}
    (h : ch.hasKey c = false) : ch.find c = none := by
  cases hf : ch.find c with
  | none => rfl
  | some m => rw [Children.hasKey, hf] at h; simp at h

theorem Children.find_remove_none {ch : Children} {c c' : Char}
    (h : ch.find c' = none) : (ch.remove c).find c' = none := by
  induction ch using Children.indOn with
  | h0 => simpa [Children.remove] using h
  | h1 k n t ih =>
    rw [Children.find] at h
    by_cases hk' : k = c'
    · simp [hk'] at h
    · rw [if_neg hk'] at h
      by_cases hk : k = c
      · simpa [Children.remove, hk] using h
      · simp [Children.remove, hk, Children.find, hk', ih h]

theorem Children.find_remove_self {ch : Children} {c : Char}
    (h : ch.keysOk = true) : (ch.remove c).find c = none := by
  induction ch using Children.indOn with
  | h0 => simp [Children.remove, Children.find]
  | h1 k n t ih =>
    rw [Children.keysOk, Bool.and_eq_true] at h
    obtain ⟨h1, h2⟩ := h
    by_cases hk : k = c
    · subst hk
      have := @Children.find_none_of_hasKey_false t k (by simpa using h1)
      simpa [Children.remove] using this
    · simp [Children.remove, hk, Children.find, hk, ih h2]

theorem Children.set_isNil_false (ch : Children) (c : Char) (m : Node) :
    (ch.set c m).isNil = false := by
  cases ch with
  | nil => simp [Children.set, Children.isNil]
  | cons k n t =>
    by_cases h : k = c <;> simp [Children.set, Children.isNil, h]

theorem Children.hasKey_set_ne (ch : Children) {c c' : Char} (m : Node) (h : c' ≠ c) :
    (ch.set c m).hasKey c' = ch.hasKey c' := by
  simp [Children.hasKey, Children.find_set_ne ch m h]

theorem Children.keysOk_set {ch : Children} {c : Char} {m : Node}
    (h : ch.keysOk = true) : (ch.set c m).keysOk = true := by
  induction ch using Children.indOn with
  | h0 => simp [Children.set, Children.keysOk, Children.hasKey, Children.find]
  | h1 k n t ih =>
    rw [Children.keysOk, Bool.and_eq_true] at h
    obtain ⟨h1, h2⟩ := h
    by_cases hk : k = c
    · subst hk
      simp [Children.set, Children.keysOk, h1, h2]
    · simp [Children.set, hk, Children.keysOk,
        Children.hasKey_set_ne t m hk, h1, ih h2]

theorem Children.keysOk_remove {ch : Children} {c : Char}
    (h : ch.keysOk = true) : (ch.remove c).keysOk = true := by
  induction ch using Children.indOn with
  | h0 => simp [Children.remove, Children.keysOk]
  | h1 k n t ih =>
    rw [Children.keysOk, Bool.and_eq_true] at h
    obtain ⟨h1, h2⟩ := h
    by_cases hk : k = c
    · simpa [Children.remove, hk] using h2
    · have hfk : (t.remove c).find k = none :=
        Children.find_remove_none (Children.find_none_of_hasKey_false (by simpa using h1))
      simp [Children.remove, hk, Children.keysOk, Children.hasKey, hfk, ih h2]

theorem Children.allNodup_find {ch : Children} {c : Char} {m : Node}
    (h : ch.allNodup = true) (hf : ch.find c = some m) : m.nodupKeys = true := by
  induction ch using Children.indOn with
  | h0 => simp [Children.find] at hf
  | h1 k n t ih =>
    rw [Children.allNodup, Bool.and_eq_true] at h
    rw [Children.find] at hf
    by_cases hk : k = c
    · rw [if_pos hk] at hf
      cases hf; exact h.1
    · rw [if_neg hk] at hf
      exact ih h.2 hf

theorem Children.allGood_find {ch : Children} {c : Char} {m : Node}
    (h : ch.allGood = true) (hf : ch.find c = some m) :
    m.isEmpty = false ∧ m.goodTree = true := by
  induction ch using Children.indOn with
  | h0 => simp [Children.find] at hf
  | h1 k n t ih =>
    rw [Children.allGood, Bool.and_eq_true, Bool.and_eq_true] at h
    rw [Children.find] at hf
    by_cases hk : k = c
    · rw [if_pos hk] at hf
      cases hf
      exact ⟨by simpa using h.1.1, h.1.2⟩
    · rw [if_neg hk] at hf
      exact ih h.2 hf

theorem Children.allNodup_set {ch : Children} {c : Char} {m : Node}
    (h : ch.allNodup = true) (hm : m.nodupKeys = true) : (ch.set c m).allNodup = true := by
  induction ch using Children.indOn with
  | h0 => simp [Children.set, Children.allNodup, hm]
  | h1 k n t ih =>
    rw [Children.allNodup, Bool.and_eq_true] at h
    by_cases hk : k = c
    · simp [Children.set, hk, Children.allNodup, hm, h.2]
    · simp [Children.set, hk, Children.allNodup, h.1, ih h.2]

theorem Children.allGood_set {ch : Children} {c : Char} {m : Node}
    (h : ch.allGood = true) (hme : m.isEmpty = false) (hmg : m.goodTree = true) :
    (ch.set c m).allGood = true := by
  induction ch using Children.indOn with
  | h0 => simp [Children.set, Children.allGood, hme, hmg]
  | h1 k n t ih =>
    rw [Children.allGood, Bool.and_eq_true, Bool.and_eq_true] at h
    by_cases hk : k = c
    · simp [Children.set, hk, Children.allGood, hme, hmg, h.2]
    · simp [Children.set, hk, Children.allGood, h.1.1, h.1.2, ih h.2]

theorem Children.allNodup_remove {ch : Children} {c : Char}
    (h : ch.allNodup = true) : (ch.remove c).allNodup = true := by
  induction ch using Children.indOn with
  | h0 => simp [Children.remove, Children.allNodup]
  | h1 k n t ih =>
    rw [Children.allNodup, Bool.and_eq_true] at h
    by_cases hk : k = c
    · simpa [Children.remove, hk] using h.2
    · simp [Children.remove, hk, Children.allNodup, h.1, ih h.2]

theorem Children.allGood_remove {ch : Children} {c : Char}
    (h : ch.allGood = true) : (ch.remove c).allGood = true := by
  induction ch using Children.indOn with
  | h0 => simp [Children.remove, Children.allGood]
  | h1 k n t ih =>
    rw [Children.allGood, Bool.and_eq_true, Bool.and_eq_true] at h
    by_cases hk : k = c
    · simpa [Children.remove, hk] using h.2
    · simp [Children.remove, hk, Children.allGood, h.1.1, h.1.2, ih h.2]

/-  Insert/get interplay.  -/

theorem Node.valsAt_mk_cons (ch : Children) (ps : List String) (c : Char) (k : List Char) :
    (Node.mk ch ps).valsAt (c :: k) =
      (match ch.find c with
       | some m => m.valsAt k
       | none => []) := by
  cases h : ch.find c <;> simp [Node.valsAt, Node.get, Node.children, h]

theorem Node.valsAt_new (k : List Char) : Node.new.valsAt k = [] := by
  cases k with
  | nil => rfl
  | cons c rest => simp [Node.new, Node.valsAt_mk_cons, Children.find]

theorem Node.valsAt_insert_self (k : List Char) (n : Node) (v : String) :
    (n.insert k v).valsAt k = n.valsAt k ++ [v] := by
  induction k generalizing n with
  | nil =>
    simp [Node.insert, Node.valsAt, Node.get, Node.paths]
  | cons c rest ih =>
    cases n with
    | mk ch ps =>
      rw [Node.insert]
      rw [Node.valsAt_mk_cons, Node.valsAt_mk_cons]
      simp only [Node.children, Children.find_set_self]
      cases h : ch.find c with
      | none => simp [h, ih, Node.valsAt_new]
      | some child => simp [h, ih]

theorem Node.get_insert_isSome (k : List Char) (n : Node) (v : String) :
    ((n.insert k v).get k).isSome = true := by
  induction k generalizing n with
  | nil => simp [Node.insert, Node.get]
  | cons c rest ih =>
    cases n with
    | mk ch ps =>
      rw [Node.insert]
      simp only [Node.get, Node.children, Children.find_set_self]
      exact ih _

theorem Node.valsAt_insert_ne (k : List Char) (n : Node) (v : String)
    (k' : List Char) (h : k' ≠ k) :
    (n.insert k v).valsAt k' = n.valsAt k' := by
  induction k generalizing n k' with
  | nil =>
    cases k' with
    | nil => exact absurd rfl h
    | cons c' r' =>
      cases n with
      | mk ch ps =>
        rw [Node.insert]
        rw [Node.valsAt_mk_cons, Node.valsAt_mk_cons]
        simp [Node.children]
  | cons c rest ih =>
    cases k' with
    | nil =>
      cases n with
      | mk ch ps =>
        rw [Node.insert]
        simp [Node.valsAt, Node.get, Node.paths]
    | cons c' r' =>
      cases n with
      | mk ch ps =>
        rw [Node.insert]
        rw [Node.valsAt_mk_cons, Node.valsAt_mk_cons]
        simp only [Node.children]
        by_cases hc : c' = c
        · subst hc
          have hr : r' ≠ rest := by
            intro he; exact h (by rw [he])
          rw [Children.find_set_self]
          cases hf : ch.find c' with
          | none => simp [ih _ _ hr, Node.valsAt_new]
          | some child => simp [ih _ _ hr]
        · rw [Children.find_set_ne ch _ hc]


theorem valsAt_foldl_insert (l : List (List Char × String)) (n : Node) (k : List Char) :
    (l.foldl (fun n p => n.insert p.1 p.2) n).valsAt k =
      n.valsAt k ++ (l.filter (fun p => decide (p.1 = k))).map Prod.snd := by
  induction l generalizing n with
  | nil => simp
  | cons p l ih =>
    rw [List.foldl_cons, ih]
    by_cases hp : p.1 = k
    · rw [hp, Node.valsAt_insert_self]
      simp [List.filter_cons, hp]
    · rw [Node.valsAt_insert_ne p.1 n p.2 k (fun he => hp he.symm)]
      simp [List.filter_cons, hp]

/-- C1: for every sequence of inserts on an (initially empty) trie and
every key `K` that was inserted at least once, `get K` succeeds, and the
returned node's values list is exactly the list of values inserted for
`K`, one occurrence per `insert(K, V)` call, in insertion order —
duplicate `(key, value)` pairs are both retained. -/
theorem insert_then_get_values (l : List (List Char × String)) (K : List Char)
    (h : ∃ v, (K, v) ∈ l) :
    ∃ m, (applyInserts l).get K = some m ∧
      m.paths = (l.filter (fun p => decide (p.1 = K))).map Prod.snd := by
  have hv : (applyInserts l).valsAt K =
      (l.filter (fun p => decide (p.1 = K))).map Prod.snd := by
    rw [applyInserts, valsAt_foldl_insert, Node.valsAt_new]
    simp
  obtain ⟨v, hm⟩ := h
  have hmem : (K, v) ∈ l.filter (fun p => decide (p.1 = K)) :=
    List.mem_filter.2 ⟨hm, by simp⟩
  cases hg : (applyInserts l).get K with
  | none =>
    rw [Node.valsAt, hg] at hv
    have : (K, v).2 ∈ (l.filter (fun p => decide (p.1 = K))).map Prod.snd :=
      List.mem_map_of_mem _ hmem
    rw [← hv] at this
    simp at this
  | some m =>
    refine ⟨m, rfl, ?_⟩
    rw [Node.valsAt, hg] at hv
    exact hv

theorem insert_then_get_values_witness :
    (∃ v, ((['a'], v) : List Char × String) ∈
        [(['a'], "x"), (['b'], "y"), (['a'], "x")]) ∧
      ∃ m, (applyInserts [(['a'], "x"), (['b'], "y"), (['a'], "x")]).get ['a'] = some m ∧
        m.paths = (([(['a'], "x"), (['b'], "y"), (['a'], "x")].filter
          (fun p => decide (p.1 = ['a']))).map Prod.snd) :=
  ⟨⟨"x", by simp⟩,
    insert_then_get_values [(['a'], "x"), (['b'], "y"), (['a'], "x")] ['a'] ⟨"x", by simp⟩⟩

/-- C10: `len` always counts the root, so it is at least 1; a fresh node
and a cleared node both have `len` 1 while `is_empty` is true, so a
`len` of 1 cannot distinguish an empty index from an absent one. -/
theorem len_counts_root (n : Node) :
    1 ≤ n.len ∧ Node.new.len = 1 ∧ (n.clear).len = 1 ∧
      Node.new.isEmpty = true ∧ (n.clear).isEmpty = true := by
  refine ⟨?_, rfl, rfl, rfl, rfl⟩
  cases n with
  | mk ch ps => rw [Node.len]; exact Nat.le_add_right 1 _

/-  Delete.  -/

theorem byteLen_ascii {k : List Char} (h : ∀ c ∈ k, Char.utf8Size c = 1) :
    byteLen k = k.length := by
  induction k with
  | nil => rfl
  | cons c rest ih =>
    rw [byteLen, List.map_cons, List.sum_cons, h c (by simp),
      show (rest.map Char.utf8Size).sum = byteLen rest from rfl,
      ih (fun c hc => h c (by simp [hc]))]
    simp [Nat.add_comm]

theorem delChar_nil (n : Node) : delChar n [] = (.mk n.children [], n.children.isNil) := rfl

theorem delChar_cons (ch : Children) (ps : List String) (c : Char) (rest : List Char) :
    delChar (.mk ch ps) (c :: rest) =
      (match ch.find c with
       | none => (.mk ch ps, false)
       | some child =>
         match delChar child rest with
         | (_, true) => (.mk (ch.remove c) ps, ps.isEmpty && (ch.remove c).isNil)
         | (child2, false) => (.mk (ch.set c child2) ps, false)) := rfl

theorem delByte_eq_delChar (rem : List Char) (n : Node) (d B : Nat)
    (h : B = d + rem.length) : delByte n rem d B = some (delChar n rem) := by
  induction rem generalizing n d with
  | nil =>
    have hd : d = B := by simpa using h.symm
    rw [delByte, if_pos hd, delChar_nil]
  | cons c rest ih =>
    have hd : ¬ d = B := by
      simp only [List.length_cons] at h
      omega
    cases n with
    | mk ch ps =>
      rw [delByte, if_neg hd, delChar_cons]
      dsimp only [Node.children, Node.paths]
      cases hf : ch.find c with
      | none => rfl
      | some child =>
        dsimp only
        rw [ih child (d + 1) (by simp only [List.length_cons] at h; omega)]
        cases hdc : delChar child rest with
        | mk c2 b => cases b <;> dsimp only

theorem Node.valsAt_of_isEmpty {n : Node} (h : n.isEmpty = true) (k : List Char) :
    n.valsAt k = [] := by
  cases n with
  | mk ch ps =>
    rw [Node.isEmpty, Bool.and_eq_true] at h
    cases ch with
    | nil =>
      cases k with
      | nil =>
        have hps : ps = [] := by simpa [Node.paths] using h.2
        simp [Node.valsAt, Node.get, Node.paths, hps]
      | cons c rest => simp [Node.valsAt_mk_cons, Children.find]
    | cons a b t => simp [Node.children, Children.isNil] at h

theorem Node.nodupKeys_child {ch : Children} {ps : List String} {c : Char} {m : Node}
    (h : (Node.mk ch ps).nodupKeys = true) (hf : ch.find c = some m) :
    m.nodupKeys = true := by
  rw [Node.nodupKeys, Bool.and_eq_true] at h
  exact Children.allNodup_find h.2 hf

theorem delChar_flag (k : List Char) (n : Node) (h : (delChar n k).2 = true) :
    (delChar n k).1.isEmpty = true := by
  induction k generalizing n with
  | nil =>
    rw [delChar_nil] at h ⊢
    simpa [Node.isEmpty, Node.children, Node.paths] using h
  | cons c rest ih =>
    cases n with
    | mk ch ps =>
      rw [delChar_cons] at h ⊢
      cases hf : ch.find c with
      | none => rw [hf] at h; simp at h
      | some child =>
        rw [hf] at h
        dsimp only at h ⊢
        cases hdc : delChar child rest with
        | mk c2 b =>
          rw [hdc] at h
          cases b with
          | true =>
            dsimp only at h ⊢
            simp [Node.isEmpty, Node.children, Node.paths] at h ⊢
            exact ⟨h.2, h.1⟩
          | false =>
            dsimp only at h
            simp at h

theorem valsAt_delChar_self (k : List Char) (n : Node) (h : n.nodupKeys = true) :
    ((delChar n k).1).valsAt k = [] := by
  induction k generalizing n with
  | nil => rw [delChar_nil]; simp [Node.valsAt, Node.get, Node.paths]
  | cons c rest ih =>
    cases n with
    | mk ch ps =>
      rw [delChar_cons]
      cases hf : ch.find c with
      | none => simp [Node.valsAt_mk_cons, hf]
      | some child =>
        dsimp only
        cases hdc : delChar child rest with
        | mk c2 b =>
          cases b with
          | true =>
            have hok : ch.keysOk = true := by
              rw [Node.nodupKeys, Bool.and_eq_true] at h; exact h.1
            simp [Node.valsAt_mk_cons, Children.find_remove_self hok]
          | false =>
            have hchild : child.nodupKeys = true := Node.nodupKeys_child h hf
            have hrec := ih child hchild
            rw [hdc] at hrec
            dsimp only at hrec
            simp [Node.valsAt_mk_cons, Children.find_set_self, hrec]

theorem valsAt_delChar_ne (k : List Char) (n : Node) (k' : List Char)
    (h : n.nodupKeys = true) (hne : k' ≠ k) :
    ((delChar n k).1).valsAt k' = n.valsAt k' := by
  induction k generalizing n k' with
  | nil =>
    cases k' with
    | nil => exact absurd rfl hne
    | cons c' r' =>
      cases n with
      | mk ch ps =>
        rw [delChar_nil]
        dsimp only [Node.children]
        rw [Node.valsAt_mk_cons, Node.valsAt_mk_cons]
  | cons c rest ih =>
    cases n with
    | mk ch ps =>
      rw [Node.nodupKeys, Bool.and_eq_true] at h
      rw [delChar_cons]
      cases hf : ch.find c with
      | none => dsimp only
      | some child =>
        have hchild : child.nodupKeys = true := Children.allNodup_find h.2 hf
        dsimp only
        cases hdc : delChar child rest with
        | mk c2 b =>
          cases b with
          | true =>
            dsimp only
            cases k' with
            | nil => simp [Node.valsAt, Node.get, Node.paths]
            | cons c' r' =>
              rw [Node.valsAt_mk_cons, Node.valsAt_mk_cons]
              by_cases hc : c' = c
              · subst hc
                rw [Children.find_remove_self h.1, hf]
                dsimp only
                have hr : r' ≠ rest := by
                  intro he; exact hne (by rw [he])
                have hpres := ih child r' hchild hr
                rw [hdc] at hpres
                dsimp only at hpres
                have hemp : c2.isEmpty = true := by
                  have hflag := delChar_flag rest child (by rw [hdc])
                  rwa [hdc] at hflag
                rw [← hpres, Node.valsAt_of_isEmpty hemp]
              · rw [Children.find_remove_ne ch hc]
          | false =>
            dsimp only
            cases k' with
            | nil => simp [Node.valsAt, Node.get, Node.paths]
            | cons c' r' =>
              rw [Node.valsAt_mk_cons, Node.valsAt_mk_cons]
              by_cases hc : c' = c
              · subst hc
                rw [Children.find_set_self, hf]
                dsimp only
                have hr : r' ≠ rest := by
                  intro he; exact hne (by rw [he])
                have hpres := ih child r' hchild hr
                rw [hdc] at hpres
                dsimp only at hpres
                exact hpres
              · rw [Children.find_set_ne ch _ hc]

/-- C2 counterexample: the claim quantifies over every key, but for the
one-character key "é" (two UTF-8 bytes) `delete` panics instead of
clearing the key's node: `delete_recursive` compares the character depth
against the byte length `key.len()`, so at depth 1 it evaluates
`key.chars().nth(1).unwrap()` on a one-character key and panics. -/
theorem delete_multibyte_panics :
    (Node.new.insert ['é'] "Y").delete ['é'] = none := rfl

/-- C2 (amended): for keys whose characters are all one UTF-8 byte
(ASCII), `delete(K)` completes: it clears the values at `K` (afterwards
`get(K)` yields absence or an empty values list), leaves the values of
every other key unchanged, and prunes exactly the newly state-less
ancestors: deleting "abc" from a trie holding only "abc"→Y removes the
"abc", "ab" and "a" nodes (the trie is the fresh empty root again), while
deleting "abc" from a trie holding "ab"→X and "abc"→Y leaves "ab" present
with its value.  For a key with a multi-byte character, `delete` panics
instead of completing. -/
theorem delete_ascii_clears_and_prunes (n : Node) (K : List Char)
    (hnd : n.nodupKeys = true) (hascii : ∀ c ∈ K, Char.utf8Size c = 1) :
    (∃ n2, n.delete K = some n2 ∧ n2.valsAt K = [] ∧
      ∀ K', K' ≠ K → n2.valsAt K' = n.valsAt K') ∧
    (Node.new.insert ['a', 'b', 'c'] "Y").delete ['a', 'b', 'c'] = some Node.new ∧
    (∃ m, ((Node.new.insert ['a', 'b'] "X").insert ['a', 'b', 'c'] "Y").delete
        ['a', 'b', 'c'] = some m ∧ (m.get ['a', 'b']).isSome = true ∧
        m.valsAt ['a', 'b'] = ["X"] ∧ m.get ['a', 'b', 'c'] = none) := by
  refine ⟨?_, rfl, ?_⟩
  · have hB : byteLen K = K.length := byteLen_ascii hascii
    have hd := delByte_eq_delChar K n 0 (byteLen K) (by rw [hB]; simp)
    refine ⟨(delChar n K).1, ?_, valsAt_delChar_self K n hnd,
      fun K' h' => valsAt_delChar_ne K n K' hnd h'⟩
    rw [Node.delete, hd, Option.map_some']
  · exact ⟨.mk (.cons 'a' (.mk (.cons 'b' (.mk .nil ["X"]) .nil) []) .nil) [],
      rfl, rfl, rfl, rfl⟩

theorem delete_ascii_clears_and_prunes_witness :
    ∃ n2, (Node.new.insert ['a'] "v").delete ['a'] = some n2 ∧
      n2.valsAt ['a'] = [] ∧
      ∀ K', K' ≠ ['a'] → n2.valsAt K' = (Node.new.insert ['a'] "v").valsAt K' :=
  (delete_ascii_clears_and_prunes (Node.new.insert ['a'] "v") ['a'] rfl
    (by decide)).1

/-  Reachable-state invariant (C9).  -/

theorem delByte_invariants (rem : List Char) (n : Node) (d B : Nat) (n2 : Node) (b : Bool)
    (hg : n.goodTree = true) (hn : n.nodupKeys = true)
    (hdel : delByte n rem d B = some (n2, b)) :
    n2.goodTree = true ∧ n2.nodupKeys = true ∧
      (b = false → n2.isEmpty = true → n.isEmpty = true) := by
  induction rem generalizing n d n2 b with
  | nil =>
    rw [delByte] at hdel
    by_cases hd : d = B
    · rw [if_pos hd] at hdel
      cases n with
      | mk ch ps =>
        rw [Node.goodTree] at hg
        rw [Node.nodupKeys] at hn
        simp only [Node.children, Option.some.injEq, Prod.mk.injEq] at hdel
        obtain ⟨he1, he2⟩ := hdel
        subst he1
        refine ⟨by rw [Node.goodTree]; exact hg, by rw [Node.nodupKeys]; exact hn, ?_⟩
        intro hb hemp
        rw [Node.isEmpty] at hemp
        simp [Node.children, Node.paths] at hemp
        rw [← he2, hemp] at hb
        simp at hb
    · rw [if_neg hd] at hdel
      simp at hdel
  | cons c rest ih =>
    rw [delByte] at hdel
    by_cases hd : d = B
    · rw [if_pos hd] at hdel
      cases n with
      | mk ch ps =>
        rw [Node.goodTree] at hg
        rw [Node.nodupKeys] at hn
        simp only [Node.children, Option.some.injEq, Prod.mk.injEq] at hdel
        obtain ⟨he1, he2⟩ := hdel
        subst he1
        refine ⟨by rw [Node.goodTree]; exact hg, by rw [Node.nodupKeys]; exact hn, ?_⟩
        intro hb hemp
        rw [Node.isEmpty] at hemp
        simp [Node.children, Node.paths] at hemp
        rw [← he2, hemp] at hb
        simp at hb
    · rw [if_neg hd] at hdel
      dsimp only at hdel
      cases n with
      | mk ch ps =>
        rw [Node.goodTree] at hg
        rw [Node.nodupKeys, Bool.and_eq_true] at hn
        cases hf : ch.find c with
        | none =>
          simp only [Node.children] at hdel
          rw [hf] at hdel
          dsimp only at hdel
          simp only [Option.some.injEq, Prod.mk.injEq] at hdel
          obtain ⟨he1, he2⟩ := hdel
          subst he1
          exact ⟨by rw [Node.goodTree]; exact hg,
            by rw [Node.nodupKeys, Bool.and_eq_true]; exact hn, fun _ he => he⟩
        | some child =>
          simp only [Node.children] at hdel
          rw [hf] at hdel
          dsimp only at hdel
          have hcg : child.isEmpty = false ∧ child.goodTree = true :=
            Children.allGood_find hg hf
          have hcn : child.nodupKeys = true := Children.allNodup_find hn.2 hf
          cases hrec : delByte child rest (d + 1) B with
          | none => rw [hrec] at hdel; simp at hdel
          | some p =>
            rw [hrec] at hdel
            cases p with
            | mk c2 b2 =>
              have hchild := ih child (d + 1) c2 b2 hcg.2 hcn hrec
              cases b2 with
              | true =>
                dsimp only at hdel
                simp only [Option.some.injEq, Prod.mk.injEq] at hdel
                obtain ⟨he1, he2⟩ := hdel
                subst he1
                refine ⟨?_, ?_, ?_⟩
                · rw [Node.goodTree]
                  exact Children.allGood_remove hg
                · rw [Node.nodupKeys, Bool.and_eq_true]
                  exact ⟨Children.keysOk_remove hn.1, Children.allNodup_remove hn.2⟩
                · intro hb hemp
                  rw [Node.isEmpty] at hemp
                  simp only [Node.children, Node.paths, Bool.and_eq_true] at hemp
                  rw [← he2] at hb
                  simp only [Node.paths] at hb
                  rw [hemp.1, hemp.2] at hb
                  simp at hb
              | false =>
                dsimp only at hdel
                simp only [Option.some.injEq, Prod.mk.injEq] at hdel
                obtain ⟨he1, he2⟩ := hdel
                subst he1
                have hc2e : c2.isEmpty = false := by
                  cases hc2e : c2.isEmpty with
                  | false => rfl
                  | true =>
                    have := hchild.2.2 rfl hc2e
                    rw [hcg.1] at this
                    exact absurd this (by simp)
                refine ⟨?_, ?_, ?_⟩
                · rw [Node.goodTree]
                  exact Children.allGood_set hg hc2e hchild.1
                · rw [Node.nodupKeys, Bool.and_eq_true]
                  exact ⟨Children.keysOk_set hn.1, Children.allNodup_set hn.2 hchild.2.1⟩
                · intro _ hemp
                  rw [Node.isEmpty] at hemp
                  simp only [Node.children, Node.paths, Bool.and_eq_true,
                    Children.set_isNil_false] at hemp
                  exact absurd hemp.1 (by simp)

theorem insert_invariants (k : List Char) (n : Node) (v : String)
    (hg : n.goodTree = true) (hn : n.nodupKeys = true) :
    (n.insert k v).goodTree = true ∧ (n.insert k v).nodupKeys = true ∧
      (n.insert k v).isEmpty = false := by
  induction k generalizing n with
  | nil =>
    cases n with
    | mk ch ps =>
      rw [Node.goodTree] at hg
      rw [Node.nodupKeys] at hn
      rw [Node.insert]
      refine ⟨?_, ?_, ?_⟩
      · rw [Node.goodTree]
        simpa [Node.children] using hg
      · rw [Node.nodupKeys]
        simpa [Node.children] using hn
      · rw [Node.isEmpty]
        simp [Node.children, Node.paths]
  | cons c rest ih =>
    cases n with
    | mk ch ps =>
      rw [Node.goodTree] at hg
      rw [Node.nodupKeys, Bool.and_eq_true] at hn
      rw [Node.insert]
      simp only [Node.children, Node.paths]
      have hchild0 : ((ch.find c).getD Node.new).goodTree = true ∧
          ((ch.find c).getD Node.new).nodupKeys = true := by
        cases hf : ch.find c with
        | none => exact ⟨rfl, rfl⟩
        | some child =>
          exact ⟨(Children.allGood_find hg hf).2, Children.allNodup_find hn.2 hf⟩
      have hrec := ih ((ch.find c).getD Node.new) hchild0.1 hchild0.2
      refine ⟨?_, ?_, ?_⟩
      · rw [Node.goodTree]
        exact Children.allGood_set hg hrec.2.2 hrec.1
      · rw [Node.nodupKeys, Bool.and_eq_true]
        exact ⟨Children.keysOk_set hn.1, Children.allNodup_set hn.2 hrec.2.1⟩
      · rw [Node.isEmpty]
        simp [Node.children, Children.set_isNil_false]

theorem runOps_invariants (l : List TrieOp) (n0 n : Node)
    (hg : n0.goodTree = true) (hn : n0.nodupKeys = true)
    (h : runOps n0 l = some n) : n.goodTree = true ∧ n.nodupKeys = true := by
  induction l generalizing n0 with
  | nil =>
    rw [runOps] at h
    cases h
    exact ⟨hg, hn⟩
  | cons op rest ih =>
    rw [runOps] at h
    cases op with
    | ins k v =>
      dsimp only [applyOp] at h
      have hi := insert_invariants k n0 v hg hn
      exact ih (n0.insert k v) hi.1 hi.2.1 h
    | del k =>
      dsimp only [applyOp] at h
      cases hdb : delByte n0 k 0 (byteLen k) with
      | none =>
        rw [Node.delete, hdb] at h
        simp at h
      | some p =>
        cases p with
        | mk n1 b =>
          rw [Node.delete, hdb] at h
          dsimp only [Option.map_some'] at h
          have hinv := delByte_invariants k n0 0 (byteLen k) n1 b hg hn hdb
          exact ih n1 hinv.1 hinv.2.1 h

/-- C9: every trie reachable from the empty root by a sequence of insert
and delete operations (that complete without panicking) satisfies the
pruning invariant: no node with both empty children and empty values is
reachable from its parent.  The root itself always survives — `delete`
returns a root node and at most clears it, never removes it — which is
why the invariant exempts the root. -/
theorem reachable_tries_pruned (l : List TrieOp) (n : Node)
    (h : applyOps l = some n) : n.goodTree = true :=
  (runOps_invariants l Node.new n rfl rfl h).1

theorem reachable_tries_pruned_witness :
    applyOps [TrieOp.ins ['a', 'b'] "x", TrieOp.ins ['a'] "y",
        TrieOp.del ['a', 'b']] = some
      (Node.mk (.cons 'a' (.mk .nil ["y"]) .nil) []) ∧
    (Node.mk (.cons 'a' (.mk .nil ["y"]) .nil) []).goodTree = true :=
  ⟨rfl, reachable_tries_pruned
    [TrieOp.ins ['a', 'b'] "x", TrieOp.ins ['a'] "y", TrieOp.del ['a', 'b']] _ rfl⟩

/-  Serialization round trip.  -/

theorem usize_eq : (256 : Nat) ^ 8 = USIZE := by norm_num [USIZE]

theorem encLE_length (w n : Nat) : (encLE w n).length = w := by
  induction w generalizing n with
  | zero => rfl
  | succ w ih => rw [encLE, List.length_cons, ih]

theorem readLE_encLE (w n : Nat) (rest : List Nat) (h : n < 256 ^ w) :
    readLE w (encLE w n ++ rest) = some (n, rest) := by
  induction w generalizing n with
  | zero =>
    have h0 : n = 0 := Nat.lt_one_iff.mp (by simpa using h)
    subst h0
    rw [encLE, List.nil_append, readLE]
  | succ w ih =>
    rw [encLE, List.cons_append, readLE]
    rw [ih (n / 256) (Nat.div_lt_of_lt_mul (by rw [← pow_succ']; exact h))]
    dsimp only
    rw [Nat.mod_add_div]

theorem charToNat_lt (c : Char) : c.toNat < 256 ^ 4 := by
  have h : c.toNat < UInt32.size := c.val.toNat_lt
  simpa [UInt32.size] using h

theorem readChars_encChars (cs : List Char) (rest : List Nat) :
    readChars cs.length (encChars cs ++ rest) = some (cs, rest) := by
  induction cs generalizing rest with
  | nil => rw [List.length_nil, encChars, List.nil_append, readChars]
  | cons c cs ih =>
    rw [List.length_cons, encChars, List.append_assoc, readChars,
      readLE_encLE 4 c.toNat _ (charToNat_lt c)]
    dsimp only
    rw [ih]
    dsimp only
    rw [Char.ofNat_toNat]

theorem readStr_encStr (s : String) (rest : List Nat) (h : s.data.length < USIZE) :
    readStr (encStr s ++ rest) = some (s, rest) := by
  rw [encStr, List.append_assoc, readStr,
    readLE_encLE 8 s.data.length _ (by rw [usize_eq]; exact h)]
  dsimp only
  rw [readChars_encChars]

theorem readPaths_encPaths (ps : List String) (rest : List Nat)
    (h : pathsBounded ps = true) :
    readPaths ps.length (encPaths ps ++ rest) = some (ps, rest) := by
  induction ps generalizing rest with
  | nil => rw [List.length_nil, encPaths, List.nil_append, readPaths]
  | cons s ps ih =>
    rw [pathsBounded, Bool.and_eq_true, decide_eq_true_eq] at h
    rw [List.length_cons, encPaths, List.append_assoc, readPaths,
      readStr_encStr s _ h.1]
    dsimp only
    rw [ih _ h.2]

mutual

theorem decode_encode_node (n : Node) : ∀ (fuel : Nat) (rest : List Nat),
    n.sizeBounded = true → n.depth ≤ fuel →
    decodeNode fuel (encodeNode n ++ rest) = some (n, rest) := by
  intro fuel rest hb hd
  cases n with
  | mk ch ps =>
    cases fuel with
    | zero =>
      rw [Node.depth] at hd
      omega
    | succ f =>
      rw [Node.sizeBounded] at hb
      simp only [Bool.and_eq_true, decide_eq_true_eq] at hb
      obtain ⟨⟨⟨hlc, hlp⟩, hpb⟩, hkb⟩ := hb
      rw [Node.depth] at hd
      have hmd : ch.maxDepth ≤ f := Nat.succ_le_succ_iff.mp hd
      rw [encodeNode]
      simp only [List.append_assoc]
      rw [decodeNode, readLE_encLE 8 ch.length _ (by rw [usize_eq]; exact hlc)]
      dsimp only
      rw [decode_encode_children ch f _ hkb hmd]
      dsimp only
      rw [readLE_encLE 8 ps.length _ (by rw [usize_eq]; exact hlp)]
      dsimp only
      rw [readPaths_encPaths ps rest hpb]

theorem decode_encode_children (ch : Children) : ∀ (f : Nat) (rest : List Nat),
    ch.kidsBounded = true → ch.maxDepth ≤ f →
    decodeKids (decodeNode f) ch.length (encodeChildren ch ++ rest) = some (ch, rest) := by
  intro f rest hb hd
  cases ch with
  | nil => rw [Children.length, encodeChildren, List.nil_append, decodeKids]
  | cons k n t =>
    rw [Children.kidsBounded, Bool.and_eq_true] at hb
    rw [Children.maxDepth, max_le_iff] at hd
    rw [Children.length, encodeChildren]
    simp only [List.append_assoc]
    rw [decodeKids, readLE_encLE 4 k.toNat _ (charToNat_lt k)]
    dsimp only
    rw [decode_encode_node n f _ hb.1 hd.1]
    dsimp only
    rw [decode_encode_children t f rest hb.2 hd.2]
    dsimp only
    rw [Char.ofNat_toNat]

end

mutual

theorem depth_le_encLength (n : Node) : n.depth ≤ (encodeNode n).length := by
  cases n with
  | mk ch ps =>
    rw [Node.depth, encodeNode]
    have h := maxDepth_le_encLength ch
    simp only [List.length_append, encLE_length]
    omega

theorem maxDepth_le_encLength (ch : Children) :
    ch.maxDepth ≤ (encodeChildren ch).length := by
  cases ch with
  | nil => rw [Children.maxDepth]; exact Nat.zero_le _
  | cons k n t =>
    rw [Children.maxDepth, encodeChildren]
    have h1 := depth_le_encLength n
    have h2 := maxDepth_le_encLength t
    simp only [List.length_append, encLE_length, max_le_iff]
    omega

end

theorem decodeBytes_encodeNode (n : Node) (hb : n.sizeBounded = true) :
    decodeBytes (encodeNode n) = some n := by
  rw [decodeBytes]
  have h := decode_encode_node n ((encodeNode n).length + 1) [] hb
    (Nat.le_succ_of_le (depth_le_encLength n))
  rw [List.append_nil] at h
  rw [h]

/-  Shard store lemmas.  -/

theorem storeFind_set_self (st : Store) (q : StoreKey) (v : List Nat) :
    storeFind (storeSet st q v) q = some v := by
  induction st with
  | nil => simp [storeSet, storeFind]
  | cons e t ih =>
    obtain ⟨k, w⟩ := e
    by_cases h : k = q
    · subst h; simp [storeSet, storeFind]
    · simp [storeSet, storeFind, h, ih]

theorem storeFind_set_ne (st : Store) {q q' : StoreKey} (v : List Nat) (h : q' ≠ q) :
    storeFind (storeSet st q v) q' = storeFind st q' := by
  induction st with
  | nil =>
    have h' : ¬ q = q' := fun he => h he.symm
    simp [storeSet, storeFind, h']
  | cons e t ih =>
    obtain ⟨k, w⟩ := e
    by_cases hk : k = q
    · subst hk
      have h' : ¬ k = q' := fun he => h he.symm
      simp [storeSet, storeFind, h']
    · simp [storeSet, storeFind, hk, ih]

theorem hasKey_false_parts {k c : Char} {n : Node} {t : Children}
    (h : (Children.cons k n t).hasKey c = false) :
    k ≠ c ∧ t.hasKey c = false := by
  rw [Children.hasKey, Children.find] at h
  by_cases hk : k = c
  · rw [if_pos hk] at h; simp at h
  · rw [if_neg hk] at h; exact ⟨hk, h⟩

theorem storeFind_writeShards_notin (p : Char) (ch : Children) (st : Store)
    (p2 c : Char) (u : Bool) (h : ch.hasKey c = false) :
    storeFind (writeShards p ch st) (p2, c, u) = storeFind st (p2, c, u) := by
  induction ch using Children.indOn generalizing st with
  | h0 => rfl
  | h1 k n t ih =>
    obtain ⟨hk, ht⟩ := hasKey_false_parts h
    rw [writeShards, ih _ ht]
    exact storeFind_set_ne st _ (by simp [hk.symm])

theorem storeFind_writeShards_find (p : Char) (ch : Children) (st : Store)
    (c : Char) (node : Node) (hok : ch.keysOk = true) (hf : ch.find c = some node) :
    storeFind (writeShards p ch st) (p, c, rustIsUpper c) = some (encodeNode node) := by
  induction ch using Children.indOn generalizing st with
  | h0 => simp [Children.find] at hf
  | h1 k n t ih =>
    rw [Children.keysOk, Bool.and_eq_true] at hok
    rw [Children.find] at hf
    by_cases hk : k = c
    · rw [if_pos hk] at hf
      cases hf
      subst hk
      rw [writeShards,
        storeFind_writeShards_notin p t _ p k (rustIsUpper k) (by simpa using hok.1)]
      exact storeFind_set_self st _ _
    · rw [if_neg hk] at hf
      rw [writeShards]
      exact ih _ hok.2 hf

theorem Node.keysOk_of_nodup {n : Node} (h : n.nodupKeys = true) :
    n.children.keysOk = true := by
  cases n with
  | mk ch ps =>
    rw [Node.nodupKeys, Bool.and_eq_true] at h
    exact h.1

theorem Children.kidsBounded_find {ch : Children} {c : Char} {m : Node}
    (h : ch.kidsBounded = true) (hf : ch.find c = some m) : m.sizeBounded = true := by
  induction ch using Children.indOn with
  | h0 => simp [Children.find] at hf
  | h1 k n t ih =>
    rw [Children.kidsBounded, Bool.and_eq_true] at h
    rw [Children.find] at hf
    by_cases hk : k = c
    · rw [if_pos hk] at hf; cases hf; exact h.1
    · rw [if_neg hk] at hf; exact ih h.2 hf

theorem Node.sizeBounded_child {n : Node} {c : Char} {m : Node}
    (h : n.sizeBounded = true) (hf : n.children.find c = some m) :
    m.sizeBounded = true := by
  cases n with
  | mk ch ps =>
    rw [Node.sizeBounded, Bool.and_eq_true] at h
    exact Children.kidsBounded_find h.2 hf

/-- C8: `save_index` on an empty index is a no-op (state and store both
unchanged, so no shard file is written); on a non-empty index it writes
one shard file per first-level child of the root (and touches no shard
file of any character that is not a first-level child), and afterwards
the in-memory index is cleared. -/
theorem save_index_empty_noop_and_shards (s : Search) (st : Store) :
    (s.index.isEmpty = true → Search.save_index s st = (s, st)) ∧
    (s.index.isEmpty = false →
      (Search.save_index s st).1.index = Node.new ∧
      (Search.save_index s st).1.search_part = s.search_part ∧
      (s.index.nodupKeys = true → ∀ c node, s.index.children.find c = some node →
        storeFind (Search.save_index s st).2 (s.search_part, c, rustIsUpper c) =
          some (encodeNode node)) ∧
      (∀ p2 c u, s.index.children.hasKey c = false →
        storeFind (Search.save_index s st).2 (p2, c, u) = storeFind st (p2, c, u))) := by
  constructor
  · intro h
    rw [Search.save_index, h, if_pos rfl]
  · intro h
    rw [Search.save_index, h, if_neg Bool.false_ne_true]
    refine ⟨rfl, rfl, ?_, ?_⟩
    · intro hnd c node hf
      exact storeFind_writeShards_find s.search_part s.index.children st c node
        (Node.keysOk_of_nodup hnd) hf
    · intro p2 c u hk
      exact storeFind_writeShards_notin s.search_part s.index.children st p2 c u hk

theorem save_index_empty_noop_and_shards_witness :
    (Search.save_index ⟨Node.new.insert ['a'] "p", 'C'⟩ []).1.index = Node.new ∧
    storeFind (Search.save_index ⟨Node.new.insert ['a'] "p", 'C'⟩ []).2
        ('C', 'a', rustIsUpper 'a') =
      some (encodeNode (.mk .nil ["p"])) := by
  have h := save_index_empty_noop_and_shards ⟨Node.new.insert ['a'] "p", 'C'⟩ []
  exact ⟨(h.2 rfl).1, (h.2 rfl).2.2.1 rfl 'a' (.mk .nil ["p"]) rfl⟩

/-- C3: on a non-empty index, `save_index` followed by `load_index c`
under the same scope (`search_part` unchanged) succeeds and reproduces
exactly the (key, values) pairs that were stored under bucket `c`: the
loaded index is the bucket's subtree, so for every key K under the
bucket (i.e. `c :: K` in the pre-save index), the loaded index holds the
same values list at K, and it holds nothing else. -/
theorem save_load_roundtrip (s : Search) (st : Store) (c : Char) (node : Node)
    (hnd : s.index.nodupKeys = true) (hsb : s.index.sizeBounded = true)
    (hne : s.index.isEmpty = false)
    (hf : s.index.children.find c = some node) :
    ∃ s2, Search.load_index (Search.save_index s st).1 (Search.save_index s st).2 c =
        some s2 ∧
      ∀ K, s2.index.valsAt K = s.index.valsAt (c :: K) := by
  rw [Search.save_index, hne, if_neg Bool.false_ne_true]
  rw [Search.load_index]
  dsimp only
  rw [storeFind_writeShards_find s.search_part s.index.children st c node
    (Node.keysOk_of_nodup hnd) hf]
  dsimp only
  rw [decodeBytes_encodeNode node (Node.sizeBounded_child hsb hf)]
  dsimp only
  refine ⟨⟨node, s.search_part⟩, rfl, ?_⟩
  intro K
  cases hs : s.index with
  | mk ch ps =>
    rw [hs] at hf
    dsimp only [Node.children] at hf
    rw [Node.valsAt_mk_cons, hf]

theorem save_load_roundtrip_witness :
    ∃ s2, Search.load_index
        (Search.save_index ⟨Node.new.insert ['c', 'a'] "p", 'C'⟩ []).1
        (Search.save_index ⟨Node.new.insert ['c', 'a'] "p", 'C'⟩ []).2 'c' = some s2 ∧
      ∀ K, s2.index.valsAt K = (Node.new.insert ['c', 'a'] "p").valsAt ('c' :: K) :=
  save_load_roundtrip ⟨Node.new.insert ['c', 'a'] "p", 'C'⟩ [] 'c'
    (.mk (.cons 'a' (.mk .nil ["p"]) .nil) []) rfl rfl rfl rfl

/-- C4 counterexample: a shard file that exists but holds corrupt bytes
(here: a zero-byte file) makes `load_index` panic
(`.expect("Failed to deserialize data")`), embedded as `none` — the
in-memory index is not reset to an empty index, and the failure is not
swallowed. -/
theorem load_corrupt_panics :
    Search.load_index ⟨Node.new, 'C'⟩ [(('C', 'c', false), [])] 'c' = none := rfl

/-- C4 (amended): when the shard file is missing, `load_index` resets the
in-memory index to an empty index and propagates no error; on success the
deserialized shard replaces the in-memory index; but on corrupt shard
data (deserialization failure) `load_index` panics instead of resetting. -/
theorem load_missing_resets (s : Search) (st : Store) (c : Char) :
    (storeFind st (s.search_part, c, rustIsUpper c) = none →
      Search.load_index s st c = some ⟨Node.new, s.search_part⟩) ∧
    (∀ bs, storeFind st (s.search_part, c, rustIsUpper c) = some bs →
      (decodeBytes bs = none → Search.load_index s st c = none) ∧
      (∀ node, decodeBytes bs = some node →
        Search.load_index s st c = some ⟨node, s.search_part⟩)) := by
  constructor
  · intro h
    rw [Search.load_index, h]
  · intro bs h
    constructor
    · intro hd
      rw [Search.load_index, h]
      dsimp only
      rw [hd]
    · intro node hd
      rw [Search.load_index, h]
      dsimp only
      rw [hd]

theorem load_missing_resets_witness :
    Search.load_index ⟨Node.new, 'C'⟩ [] 'c' = some ⟨Node.new, 'C'⟩ :=
  (load_missing_resets ⟨Node.new, 'C'⟩ [] 'c').1 rfl

/-  Query engine (C7).  -/

theorem get_none_of_isEmpty {idx : Node} (he : idx.isEmpty = true)
    {K : List Char} (hne : K ≠ []) : idx.get K = none := by
  cases K with
  | nil => exact absurd rfl hne
  | cons c r =>
    cases idx with
    | mk ch ps =>
      rw [Node.isEmpty, Bool.and_eq_true] at he
      cases ch with
      | nil => simp [Node.get, Node.children, Children.find]
      | cons a b t => simp [Node.children, Children.isNil] at he

theorem searchIndex_error_iff (idx : Node) (k : List Char) :
    searchIndex idx k = .error () ↔ idx.get (stripQ k) = none := by
  rw [searchIndex, stripQ]
  by_cases h : k.getLast? = some '?'
  · rw [if_pos h, if_pos h]
    cases hg : idx.get k.dropLast with
    | none => simp
    | some m => simp
  · rw [if_neg h, if_neg h]
    cases hg : idx.get k with
    | none => simp
    | some m => simp

/-- C7 counterexample: querying an empty index with the empty keyword (or
a lone wildcard) returns an empty success `Ok([])`, not the not-found
error — `get("")` returns the root node, which always exists. -/
theorem empty_keyword_empty_success :
    searchIndex Node.new [] = .ok [] ∧ searchIndex Node.new ['?'] = .ok [] :=
  ⟨rfl, rfl⟩

/-- C7 (amended): `search` fails with the not-found signal exactly when
the keyword (after stripping a trailing wildcard) is absent from the
loaded index — so the query miss is the only error the operation
surfaces; on an empty index every keyword whose stripped form is
non-empty is absent and therefore fails, while the empty keyword (or a
lone wildcard) returns an empty success since the root node always
exists. -/
theorem search_miss_error (idx : Node) (k : List Char) :
    (searchIndex idx k = .error () ↔ idx.get (stripQ k) = none) ∧
    (idx.isEmpty = true → stripQ k ≠ [] → searchIndex idx k = .error ()) :=
  ⟨searchIndex_error_iff idx k,
    fun he hne => (searchIndex_error_iff idx k).2 (get_none_of_isEmpty he hne)⟩

theorem search_miss_error_witness :
    searchIndex Node.new ['a'] = .error () :=
  (search_miss_error Node.new ['a']).2 rfl (by decide)

/-  Crawler (C5, C6).  -/

def primPart (r : Option (Node × Node)) : Node :=
  match r with
  | some p => p.1
  | none => Node.new

def extPart (r : Option (Node × Node)) : Node :=
  match r with
  | some p => p.2
  | none => Node.new

/-- C5 counterexample: the extension-less, non-hidden file "Makefile"
(selector `*`) is keyed in the extension index by "akefile" — its name
with the first character removed (`file_name.remove(0)`) — not by its own
name "Makefile" as the claim states. -/
theorem extensionless_key_drops_first_char :
    (extPart (fileStep Node.new Node.new ("Makefile".toList) "/r/Makefile" '*')).get
        ("Makefile".toList) = none ∧
    (extPart (fileStep Node.new Node.new ("Makefile".toList) "/r/Makefile" '*')).valsAt
        ("akefile".toList) = ["/r/Makefile"] :=
  ⟨rfl, rfl⟩

/-- C5 (amended): for every file whose (non-empty) name matches the
selector (or the selector is `*`): a hidden name (leading `'.'`) is not
inserted into the primary index but the file is still inserted into the
extension index; a non-hidden name is inserted into the primary index;
the extension index keys the file by `extKey`: the extension derived from
the path when it has one (and that extension is not the literal string
"None"), and otherwise — no extension, or literal extension "None" — by
the file's own name with its first character removed. -/
theorem hidden_and_extension_indexing (idx ext : Node) (name : List Char) (path : String)
    (sec : Char) (hmatch : name.head? = some sec ∨ sec = '*') (hne : name ≠ []) :
    (∃ p, fileStep idx ext name path sec = some p ∧
      (name.head? = some '.' → p.1 = idx) ∧
      (name.head? ≠ some '.' → p.1 = idx.insert name path) ∧
      p.2 = ext.insert (extKey name) path ∧
      p.2.valsAt (extKey name) = ext.valsAt (extKey name) ++ [path]) ∧
    (∀ e, rustExtension name = some e → ¬ e = "None".toList → extKey name = e) ∧
    (rustExtension name = none → extKey name = name.tail) := by
  refine ⟨?_, ?_, ?_⟩
  · rw [fileStep.eq_def, if_pos hmatch]
    cases name with
    | nil => exact absurd rfl hne
    | cons c r =>
      dsimp only
      by_cases hh : ((c :: r : List Char).head? = some '.')
      · rw [if_pos hh]
        exact ⟨_, rfl, fun _ => rfl, fun hcon => absurd hh hcon, rfl,
          Node.valsAt_insert_self _ _ _⟩
      · rw [if_neg hh]
        exact ⟨_, rfl, fun hcon => absurd hcon hh, fun _ => rfl, rfl,
          Node.valsAt_insert_self _ _ _⟩
  · intro e hre hnN
    rw [extKey, hre]
    dsimp only
    rw [if_neg hnN]
  · intro hre
    rw [extKey, hre]

theorem hidden_and_extension_indexing_witness :
    ∃ p, fileStep Node.new Node.new (".bashrc".toList) "/h/.bashrc" '*' = some p ∧
      ((".bashrc".toList).head? = some '.' → p.1 = Node.new) := by
  obtain ⟨⟨p, h1, h2, _⟩, _⟩ := hidden_and_extension_indexing Node.new Node.new
    (".bashrc".toList) "/h/.bashrc" '*' (Or.inr rfl) (by decide)
  exact ⟨p, h1, h2⟩

/-- C6 counterexample: a single directory entry the iterator fails to
yield (`entry.expect("Failed to get entry")` / `file_type().unwrap()`)
panics the whole crawl instead of being swallowed silently. -/
theorem bad_entry_panics :
    generate_index (.readable (.cons .bad .nil)) '*' = none := rfl

/-- C6 (amended): an unreadable subdirectory is swallowed silently — the
traversal skips it, leaves the accumulators unchanged and proceeds with
the remaining sibling entries; a completely unreadable root directory
yields an index containing no entries at all (only the reserved, empty
extension bucket merged under `'.'`), not an error; but an unreadable
individual directory entry panics the crawl (it is not swallowed). -/
theorem unreadable_dirs_swallowed :
    (∀ acc sec rest, travEntries acc sec (.cons (.sub .unreadable) rest) =
      travEntries acc sec rest) ∧
    (∀ sec, generate_index .unreadable sec = some (add_value Node.new '.' Node.new)) ∧
    (∀ sec K, (generate_index .unreadable sec).map (fun n => n.valsAt K) = some []) := by
  refine ⟨fun acc sec rest => rfl, fun sec => rfl, fun sec K => ?_⟩
  show some ((add_value Node.new '.' Node.new).valsAt K) = some []
  have h : (add_value Node.new '.' Node.new).valsAt K = [] := by
    cases K with
    | nil => rfl
    | cons c r =>
      show (Node.mk (.cons '.' (.mk .nil []) .nil) []).valsAt (c :: r) = []
      rw [Node.valsAt_mk_cons, Children.find]
      by_cases hc : ('.' : Char) = c
      · rw [if_pos hc]
        dsimp only
        exact @Node.valsAt_of_isEmpty (Node.mk .nil []) rfl r
      · rw [if_neg hc, Children.find]
  rw [h]
